import Mathlib

/-!
Shallow embedding of the gcrs repository (file src/gcroot.rs): an
inventory of Nix garbage-collection roots.  The Rust code is translated
function by function; operating-system effects (permission checks,
symlink reads, the external nix-store process) are supplied through an
explicit environment record, and the external path/string library
functions that the code calls (camino's file_name/parent/starts_with,
Rust's str::rsplitn, str::rsplit_once, str::lines, u64::from_str,
String::from_utf8) are modelled as pure Lean functions documented below.
Rust strings and UTF-8 paths are both modelled as lists of characters.
-/

namespace Gcrs

/-- Rust strings (and camino UTF-8 paths) are modelled as lists of characters. -/
abbrev Str := List Char

/-- Modelled from Rust str::split(c): splits at every occurrence of the
character c, keeping empty parts (so the result is never empty). -/
def splitOnChar (c : Char) : Str → List Str
  | [] => [[]]
  | x :: xs =>
    if x = c then [] :: splitOnChar c xs
    else
      match splitOnChar c xs with
      | [] => [[x]]
      | y :: ys => (x :: y) :: ys

/-- The part of s after the last occurrence of c (s itself when c is absent). -/
def lastPart (c : Char) : Str → Str
  | [] => []
  | x :: xs => if c ∈ xs then lastPart c xs else if x = c then xs else x :: xs

/-- Joins parts with the separator character c (the inverse of splitOnChar,
used to model the unsplit remainder of Rust str::rsplitn). -/
def joinWith (c : Char) : List Str → Str
  | [] => []
  | [s] => s
  | s :: rest => s ++ c :: joinWith c rest

/-- Modelled from Rust str::rsplitn(n, c): at most n parts, splitting from
the right; parts are produced right-to-left and the final part is the
unsplit remainder. -/
def rsplitn (n : Nat) (c : Char) (s : Str) : List Str :=
  let ps := splitOnChar c s
  if ps.length ≤ n then ps.reverse
  else (ps.drop (ps.length - (n - 1))).reverse ++ [joinWith c (ps.take (ps.length - (n - 1)))]

/-- Modelled from Rust str::rsplit_once(pat): splits at the last occurrence
of the pattern, returning the text before and after it. -/
def rsplitOnce (pat : Str) : Str → Option (Str × Str)
  | [] => none
  | x :: xs =>
    match rsplitOnce pat xs with
    | some (a, b) => some (x :: a, b)
    | none => if pat.isPrefixOf (x :: xs) then some ([], (x :: xs).drop pat.length) else none

/-- Modelled from camino Utf8Path::file_name: the component after the last
'/' separator; none when that component is empty (trailing slash or root),
"." or "..".  (The real library also normalizes interior "." components;
no path handled by the claims contains one.) -/
def fileName (p : Str) : Option Str :=
  let s := lastPart '/' p
  if s = [] ∨ s = ['.', '.'] ∨ s = ['.'] then none else some s

/-- Drops every trailing occurrence of the character c. -/
def stripTrailing (c : Char) (s : Str) : Str := (s.reverse.dropWhile (fun x => x = c)).reverse

/-- Modelled from camino Utf8Path::parent: the path without its final
component; none for the root path and the empty path. -/
def parentPath (p : Str) : Option Str :=
  let q := stripTrailing '/' p
  if q = [] then none
  else
    let r := stripTrailing '/' (q.take (q.length - (lastPart '/' q).length))
    if r = [] then (if p.head? = some '/' then some ['/'] else some []) else some r

/-- Normalized path components: the non-empty, non-"." segments between '/'
separators (modelled from std::path components). -/
def pathComponents (p : Str) : List Str :=
  (splitOnChar '/' p).filter (fun s => decide (s ≠ [] ∧ s ≠ ['.']))

/-- Whether a path is absolute (begins with '/'). -/
def isAbsolute (p : Str) : Bool := p.head? = some '/'

/-- Modelled from camino Utf8Path::starts_with: component-wise path-prefix
test (so "/runfoo" does not start with "/run", while "/run/x" does). -/
def pathStartsWith (p pre : Str) : Bool :=
  (isAbsolute p = isAbsolute pre) && (pathComponents pre).isPrefixOf (pathComponents p)

/-- Numeric value of a string of ASCII digits. -/
def digitsVal (t : Str) : Nat := t.foldl (fun a c => a * 10 + (c.toNat - 48)) 0

/-- Modelled from Rust u64::from_str: an optional leading '+' sign followed
by at least one ASCII digit, with the value required to fit in 64 bits. -/
def parseU64 (s : Str) : Option Nat :=
  let t := match s with
    | '+' :: r => r
    | _ => s
  if t ≠ [] ∧ t.all (fun c => c.isDigit) then
    if digitsVal t < 2 ^ 64 then some (digitsVal t) else none
  else none

/-- The literal " -> " separator of nix-store gc-root listing lines. -/
def arrow : Str := " -> ".toList

/-- Captured output of the external "nix-store --gc --print-roots" process:
exit-status success flag, the display form of the exit status, and raw
stdout bytes. -/
structure Output where
  success : Bool
  statusStr : Str
  stdout : List Nat
deriving DecidableEq

/-- The operating-system effects the program performs, supplied as pure
oracles: access(W_OK) on a directory, access(R_OK) on a path, the
is_symlink test, read_link (none modelling a read_link error), and the
captured output of the external listing command. -/
structure Env where
  canWrite : Str → Bool
  canRead : Str → Bool
  isSymlink : Str → Bool
  readLink : Str → Option Str
  output : Output

/-- The fatal error values the program can produce (eyre errors and panics). -/
inductive GcError where
  | msg (s : Str)
  | utf8Error
  | ioError
  | panicNoSeparator
deriving DecidableEq

instance {ε α : Type} [DecidableEq ε] [DecidableEq α] : DecidableEq (Except ε α) :=
  fun x y =>
    match x, y with
    | .ok a, .ok b =>
      if h : a = b then isTrue (by rw [h]) else isFalse (fun hh => h (Except.ok.inj hh))
    | .error a, .error b =>
      if h : a = b then isTrue (by rw [h]) else isFalse (fun hh => h (Except.error.inj hh))
    | .ok _, .error _ => isFalse (fun hh => Except.noConfusion hh)
    | .error _, .ok _ => isFalse (fun hh => Except.noConfusion hh)

/-- The message of the eyre error raised on a non-zero exit status of the
external listing command. -/
def cmdFailMsg (status : Str) : Str :=
  ("\"nix-store --gc --print-roots\" exited with code ").toList ++ status

/-- A Nix garbage-collection root: location of the symlink and its target
(struct GCRoot in src/gcroot.rs). -/
structure GCRoot where
  path : Str
  target : Str
deriving DecidableEq

namespace GCRoot

/-- GCRoot::get_profile_gen: Some(generation number) when the file name of
the root's path fits the profile-generation naming scheme. -/
def get_profile_gen (r : GCRoot) : Option Nat :=
  match fileName r.path with
  | none => none
  | some file_name =>
    if 2 ≤ file_name.count '-' then
      let iter := rsplitn 3 '-' file_name
      if iter.get? 0 = some ("link".toList) then (iter.get? 1).bind parseU64
      else none
    else none

/-- GCRoot::get_profile_path: Some(path) of the owning profile when the root
fits the naming scheme.  The source unwraps the third part of
rsplitn(3, '-') applied to the full path string; the unwrap is modelled as
a bind on the corresponding list index. -/
def get_profile_path (r : GCRoot) : Option Str :=
  (r.get_profile_gen).bind (fun _ => (rsplitn 3 '-' r.path).get? 2)

/-- GCRoot::can_delete_file: write permission on the path's parent directory. -/
def can_delete_file (env : Env) (path : Str) : Bool :=
  match parentPath path with
  | some parent => env.canWrite parent
  | none => false

/-- GCRoot::deletable: the path is under neither /run nor /proc and the
parent directory is writable.  (The source's doc comment: "Doesn't check
if the gcroot is an active profile.") -/
def deletable (env : Env) (r : GCRoot) : Bool :=
  !(pathStartsWith r.path ("/run".toList)) && !(pathStartsWith r.path ("/proc".toList))
    && can_delete_file env r.path

/-- Display for GCRoot: "path -> target". -/
def display (r : GCRoot) : Str := r.path ++ arrow ++ r.target

end GCRoot

/-- A Nix profile with its generations (struct Profile in src/gcroot.rs).
The BTreeMap of generations is modelled as an ascending association list. -/
structure Profile where
  path : Str
  active_generation : Option Nat
  generations : List (Nat × GCRoot)
deriving DecidableEq

/-- BTreeMap::insert on an ascending association list: inserts in order,
overwriting the value when the key is already present. -/
def mapInsert (k : Nat) (v : GCRoot) : List (Nat × GCRoot) → List (Nat × GCRoot)
  | [] => [(k, v)]
  | (k', v') :: rest =>
    if k < k' then (k, v) :: (k', v') :: rest
    else if k = k' then (k, v) :: rest
    else (k', v') :: mapInsert k v rest

/-- Fuel-driven digit renderer (the fuel makes the recursion structural;
any fuel above the number suffices). -/
def natDigitsAux : Nat → Nat → Str
  | 0, _ => []
  | fuel + 1, n =>
    if n < 10 then [Char.ofNat (48 + n)]
    else natDigitsAux fuel (n / 10) ++ [Char.ofNat (48 + n % 10)]

/-- Modelled from Rust u64 Display: the decimal digit string of a number. -/
def natDigits (n : Nat) : Str := natDigitsAux (n + 1) n

/-- Modelled from Rust u64::checked_ilog10: none for zero, otherwise the
floor of the base-10 logarithm, which is the digit count minus one. -/
def checkedIlog10 (n : Nat) : Option Nat :=
  if n = 0 then none else some ((natDigits n).length - 1)

/-- Modelled from Iterator::max on a list of keys. -/
def listMax : List Nat → Option Nat
  | [] => none
  | x :: xs =>
    match listMax xs with
    | none => some x
    | some m => some (max x m)

/-- Modelled from the Rust format specifier "{: >w$}": pads with spaces on
the left up to width w (right-aligns). -/
def padNum (w : Nat) (s : Str) : Str := List.replicate (w - s.length) ' ' ++ s

/-- The field width used by Display for Profile:
1 + generations.keys().max().and_then(u64::checked_ilog10).unwrap_or(0). -/
def Profile.digitsWidth (p : Profile) : Nat :=
  1 + ((listMax (p.generations.map Prod.fst)).bind checkedIlog10).getD 0

/-- Display for Profile: the base path, then one line per generation in
reverse (descending) map order, each "> " or "  " according to whether the
generation is the active one, the number right-aligned to the field width,
then " -> target". -/
def Profile.display (p : Profile) : Str :=
  p.path ++
    (p.generations.reverse.map (fun kg =>
      '\n' :: ((if p.active_generation = some kg.1 then "> ".toList else "  ".toList)
        ++ padNum p.digitsWidth (natDigits kg.1) ++ arrow ++ kg.2.target))).flatten

/-- A collection of GC roots (struct GCRoots in src/gcroot.rs). -/
structure GCRoots where
  profiles : List Profile
  standalone : List GCRoot
deriving DecidableEq

/-- The profile section of Display for GCRoots: the rendered profiles
separated by blank lines (writeln! after every profile but the last, plus
a leading writeln! before every profile but the first). -/
def GCRoots.profilesPart : List Str → Str
  | [] => []
  | [s] => s
  | s :: rest => s ++ ['\n', '\n'] ++ GCRoots.profilesPart rest

/-- The standalone section of Display for GCRoots: the rendered standalone
roots separated by newlines. -/
def GCRoots.standalonePart : List Str → Str
  | [] => []
  | [s] => s
  | s :: rest => s ++ ['\n'] ++ GCRoots.standalonePart rest

/-- Display for GCRoots: the profile section, then (when any standalone
root exists) a blank line, then the standalone section. -/
def GCRoots.display (m : GCRoots) : Str :=
  GCRoots.profilesPart (m.profiles.map Profile.display)
    ++ (if m.standalone.length > 0 then ['\n', '\n'] else [])
    ++ GCRoots.standalonePart (m.standalone.map GCRoot.display)

/-- GCRoots::can_read_file: access(R_OK) on the path. -/
def can_read_file (env : Env) (path : Str) : Bool := env.canRead path

/-- GCRoots::read_active_gen: none when the profile path is unreadable;
otherwise read the symlink (an error there is fatal) and parse the part of
its file name before the last '-' and after the '-' before that,
rsplitn(3, '-').skip(1).next(), as the active generation number. -/
def read_active_gen (env : Env) (profile_path : Str) : Except GcError (Option Nat) :=
  if can_read_file env profile_path then
    match env.readLink profile_path with
    | none => .error .ioError
    | some link =>
      match fileName link with
      | none => .ok none
      | some name =>
        match (rsplitn 3 '-' name).get? 1 with
        | none => .ok none
        | some generation => .ok (parseU64 generation)
  else .ok none

/-- GCRoots::parse_nix_store_gc_line: split the line at the last " -> ";
drop lines whose path begins (string-wise) with "/proc" or is wrapped in
braces; a line without the separator is a panic, modelled as an error. -/
def parse_nix_store_gc_line (line : Str) : Except GcError (Option GCRoot) :=
  match rsplitOnce arrow line with
  | none => .error .panicNoSeparator
  | some (path, target) =>
    if ¬ (("/proc".toList).isPrefixOf path)
        ∧ ¬ (path.head? = some (Char.ofNat 123) ∧ path.getLast? = some (Char.ofNat 125)) then
      .ok (some { path := path, target := target })
    else .ok none

/-- Modelled from Rust str::lines: split at '\n', dropping a final empty
segment, and stripping one trailing '\r' from every segment that was
terminated by '\n'. -/
def rustLines (s : Str) : List Str :=
  let parts := splitOnChar '\n' s
  let terminated := parts.dropLast.map (fun l => if l.getLast? = some '\r' then l.dropLast else l)
  let final := parts.getLastD []
  if final = [] then terminated else terminated ++ [final]

/-- Modelled from Rust String::from_utf8: strict UTF-8 validation and
decoding of a byte list (rejecting overlong forms, surrogates and values
above 0x10FFFF). -/
def utf8Decode : List Nat → Option (List Char)
  | [] => some []
  | b :: rest =>
    if b < 0x80 then (utf8Decode rest).map (fun cs => Char.ofNat b :: cs)
    else if b < 0xC2 then none
    else if b ≤ 0xDF then
      match rest with
      | c :: rest2 =>
        if 0x80 ≤ c ∧ c ≤ 0xBF then
          (utf8Decode rest2).map (fun cs => Char.ofNat ((b - 0xC0) * 0x40 + (c - 0x80)) :: cs)
        else none
      | [] => none
    else if b ≤ 0xEF then
      match rest with
      | c :: d :: rest3 =>
        if (if b = 0xE0 then 0xA0 ≤ c ∧ c ≤ 0xBF
            else if b = 0xED then 0x80 ≤ c ∧ c ≤ 0x9F
            else 0x80 ≤ c ∧ c ≤ 0xBF)
            ∧ 0x80 ≤ d ∧ d ≤ 0xBF then
          (utf8Decode rest3).map (fun cs =>
            Char.ofNat ((b - 0xE0) * 0x1000 + (c - 0x80) * 0x40 + (d - 0x80)) :: cs)
        else none
      | _ => none
    else if b ≤ 0xF4 then
      match rest with
      | c :: d :: e :: rest4 =>
        if (if b = 0xF0 then 0x90 ≤ c ∧ c ≤ 0xBF
            else if b = 0xF4 then 0x80 ≤ c ∧ c ≤ 0x8F
            else 0x80 ≤ c ∧ c ≤ 0xBF)
            ∧ 0x80 ≤ d ∧ d ≤ 0xBF ∧ 0x80 ≤ e ∧ e ≤ 0xBF then
          (utf8Decode rest4).map (fun cs =>
            Char.ofNat ((b - 0xF0) * 0x40000 + (c - 0x80) * 0x1000 + (d - 0x80) * 0x40 + (e - 0x80)) :: cs)
        else none
      | _ => none
    else none

/-- The lines().filter_map(parse_nix_store_gc_line).collect() step, with a
panic in the line parser propagated as an error. -/
def collectRoots : List Str → Except GcError (List GCRoot)
  | [] => .ok []
  | l :: ls =>
    match parse_nix_store_gc_line l with
    | .error e => .error e
    | .ok none => collectRoots ls
    | .ok (some r) => (collectRoots ls).map (fun rs => r :: rs)

/-- GCRoots::parse_nix_store_gc_output: a non-zero exit status is an eyre
error naming the command and its status; non-UTF8 stdout is an error; an
ok output is split into lines and filtered through the line parser. -/
def parse_nix_store_gc_output (output : Output) : Except GcError (List GCRoot) :=
  if output.success then
    match utf8Decode output.stdout with
    | none => .error .utf8Error
    | some s => collectRoots (rustLines s)
  else .error (.msg (cmdFailMsg output.statusStr))

/-- The comparison used to sort candidate profile paths and profiles
(modelled with the lexicographic order on character lists; the source
orders by path components, but order only matters for grouping equal
paths adjacently, which any linear order provides). -/
def strLe (a b : Str) : Prop := a ≤ b

instance : DecidableRel strLe := fun a b => inferInstanceAs (Decidable (a ≤ b))

/-- The comparison used by standalone.sort_unstable() (derived Ord on
GCRoot: path, then target). -/
def gcrootLe (a b : GCRoot) : Prop :=
  a.path < b.path ∨ (a.path = b.path ∧ a.target ≤ b.target)

instance : DecidableRel gcrootLe := fun a b =>
  inferInstanceAs (Decidable (a.path < b.path ∨ (a.path = b.path ∧ a.target ≤ b.target)))

/-- The comparison used by profiles.sort_unstable_by on base paths. -/
def profileLe (a b : Profile) : Prop := a.path ≤ b.path

instance : DecidableRel profileLe := fun a b => inferInstanceAs (Decidable (a.path ≤ b.path))

/-- Vec::dedup: removes consecutive duplicates. -/
def dedupConsec : List Str → List Str
  | [] => []
  | [a] => [a]
  | a :: b :: t => if a = b then dedupConsec (b :: t) else a :: dedupConsec (b :: t)

/-- The profile-construction loop of GCRoots::create_profiles: one Profile
per candidate path, with its active generation resolved (an error there is
propagated) and an empty generation map. -/
def buildProfiles (env : Env) : List Str → Except GcError (List Profile)
  | [] => .ok []
  | path :: rest =>
    match read_active_gen env path with
    | .error e => .error e
    | .ok active_generation =>
      (buildProfiles env rest).map
        (fun ps => { path := path, active_generation := active_generation, generations := [] } :: ps)

/-- GCRoots::create_profiles: collect the profile paths of the roots that
fit the naming scheme, keep those that exist as symlinks, sort and dedup
them, build one Profile per path, and sort the profiles by path. -/
def create_profiles (env : Env) (gcroots : List GCRoot) : Except GcError (List Profile) :=
  let profile_paths := (gcroots.filterMap GCRoot.get_profile_path).filter env.isSymlink
  let profile_paths := dedupConsec (List.insertionSort strLe profile_paths)
  (buildProfiles env profile_paths).map (List.insertionSort profileLe)

/-- Replaces the first profile whose path equals pp by the same profile
with (gen, g) inserted into its generation map (the iter_mut().find()
followed by insert in GCRoots::populate_profiles). -/
def updateFirst (pp : Str) (gen : Nat) (g : GCRoot) : List Profile → List Profile
  | [] => []
  | p :: ps =>
    if p.path = pp then { p with generations := mapInsert gen g p.generations } :: ps
    else p :: updateFirst pp gen g ps

/-- The search step of GCRoots::populate_profiles: the root's profile path,
provided some profile carries it, paired with the root's generation. -/
def searchProfile (g : GCRoot) (ps : List Profile) : Option (Str × Nat) :=
  (g.get_profile_path).bind (fun pp =>
    if ps.any (fun p => decide (p.path = pp)) then
      (g.get_profile_gen).map (fun gen => (pp, gen))
    else none)

/-- GCRoots::populate_profiles: route every root either into the generation
map of the first profile whose path matches it, or into the standalone
list (in encounter order). -/
def populate_profiles : List GCRoot → List Profile → List Profile × List GCRoot
  | [], ps => (ps, [])
  | g :: gs, ps =>
    match searchProfile g ps with
    | some (pp, gen) => populate_profiles gs (updateFirst pp gen g ps)
    | none =>
      let r := populate_profiles gs ps
      (r.1, g :: r.2)

/-- GCRoots::group_gcroots: create the profiles, populate them, and sort
the standalone remainder. -/
def group_gcroots (env : Env) (gcroots : List GCRoot) : Except GcError GCRoots :=
  (create_profiles env gcroots).map (fun profiles =>
    let r := populate_profiles gcroots profiles
    { profiles := r.1, standalone := List.insertionSort gcrootLe r.2 })

/-- GCRoots::from_nix_store_command: parse the captured output of the
external listing command and group the parsed roots. -/
def from_nix_store_command (env : Env) : Except GcError GCRoots :=
  match parse_nix_store_gc_output env.output with
  | .error e => .error e
  | .ok gcroots => group_gcroots env gcroots

/-- Whether generation i of profile p is marked active: the comparison
active_generation == Some(id) performed by Display for Profile. -/
def isActive (p : Profile) (i : Nat) : Bool := p.active_generation == some i

/-- The grouping key of a root: its profile path and generation number,
when it fits the naming scheme. -/
def rootKey (g : GCRoot) : Option (Str × Nat) :=
  match g.get_profile_path, g.get_profile_gen with
  | some a, some b => some (a, b)
  | _, _ => none

/-- The grouping keys of the roots that fit the naming scheme. -/
def keysOf (gs : List GCRoot) : List (Str × Nat) := gs.filterMap rootKey

/-- All roots stored in the generation maps of a list of profiles. -/
def flatVals (ps : List Profile) : List GCRoot :=
  (ps.map (fun p => p.generations.map Prod.snd)).flatten

/-- No generation stored in any of the profiles carries a grouping key that
a root of the list still to be processed would produce. -/
def FreshKeys (ps : List Profile) (gs : List GCRoot) : Prop :=
  ∀ p ∈ ps, ∀ k ∈ p.generations.map Prod.fst, (p.path, k) ∉ keysOf gs

/-- Strictly ascending generation keys (the BTreeMap ordering invariant). -/
def KeySorted (p : Profile) : Prop :=
  List.Pairwise (fun a b : Nat × GCRoot => a.1 < b.1) p.generations

/-- Joins rendered items with a separator ("separated by" in the rendering
contract of spec section 6). -/
def joinBy (sep : Str) : List Str → Str
  | [] => []
  | [s] => s
  | s :: rest => s ++ sep ++ joinBy sep rest

/-- Ascending order on generation entries by generation number. -/
def genLe (a b : Nat × GCRoot) : Prop := a.1 ≤ b.1

instance : DecidableRel genLe := fun a b => inferInstanceAs (Decidable (a.1 ≤ b.1))

/-- Pads a digit string with spaces on the right up to the field width (the
literal "right-padded" reading of the rendering claim). -/
def padNumRight (w : Nat) (s : Str) : Str := s ++ List.replicate (w - s.length) ' '

/-- The generation lines of one profile per the rendering contract of spec
section 6: the generations in descending numeric order, one line each,
the active generation marked "> " and inactive ones "  ", the number
padded by the given function to the width of the largest generation
number, then " -> target". -/
def specProfileLines (pad : Nat → Str → Str) (p : Profile) : Str :=
  let width := (natDigits ((listMax (p.generations.map Prod.fst)).getD 0)).length
  ((List.insertionSort genLe p.generations).reverse.map (fun kg =>
    '\n' :: ((if p.active_generation = some kg.1 then "> ".toList else "  ".toList)
      ++ pad width (natDigits kg.1) ++ arrow ++ kg.2.target))).flatten

/-- The rendering contract of spec section 6: each profile as its base path
followed by its generation lines, profiles separated by blank lines,
then after a blank line the standalone roots, one "location -> target"
line each. -/
def specRender (pad : Nat → Str → Str) (m : GCRoots) : Str :=
  joinBy ['\n', '\n'] (m.profiles.map (fun p => p.path ++ specProfileLines pad p))
    ++ (if m.standalone ≠ [] then ['\n', '\n'] else [])
    ++ joinBy ['\n'] (m.standalone.map (fun r => r.path ++ arrow ++ r.target))

/-- An output value for runs where the external command succeeds (claims
about grouping never consult it). -/
def okOutput : Output := { success := true, statusStr := [], stdout := [] }

/-- Concrete environment: everything readable and writable, one profile
symlink at /p/sys whose link target names generation 5. -/
def c1Env : Env :=
  { canWrite := fun _ => true
    canRead := fun _ => true
    isSymlink := fun p => decide (p = "/p/sys".toList)
    readLink := fun p => if p = "/p/sys".toList then some ("sys-5-link".toList) else none
    output := okOutput }

/-- The generation root of profile /p/sys at generation 5. -/
def c1Root : GCRoot := { path := "/p/sys-5-link".toList, target := "/s/x".toList }

/-- The profile holding c1Root as its generation 5, with generation 5 active. -/
def c1Profile : Profile :=
  { path := "/p/sys".toList, active_generation := some 5, generations := [(5, c1Root)] }

/-- The grouped model produced from c1Env and [c1Root]. -/
def c1Model : GCRoots := { profiles := [c1Profile], standalone := [] }

/-- Concrete environment whose profile symlink at /a/profile points at a
target named "foo-7-bar", which does not fit the generation-root pattern. -/
def c2Env : Env :=
  { canWrite := fun _ => true
    canRead := fun _ => true
    isSymlink := fun p => decide (p = "/a/profile".toList)
    readLink := fun p => if p = "/a/profile".toList then some ("foo-7-bar".toList) else none
    output := okOutput }

/-- Concrete environment with one profile symlink at /a/p pointing at
generation 10, and nothing readable elsewhere. -/
def c3Env : Env :=
  { canWrite := fun _ => true
    canRead := fun p => decide (p = "/a/p".toList)
    isSymlink := fun p => decide (p = "/a/p".toList)
    readLink := fun p => if p = "/a/p".toList then some ("p-10-link".toList) else none
    output := okOutput }

/-- Two parsed roots with the same location, hence the same grouping key. -/
def c3Roots : List GCRoot :=
  [{ path := "/a/p-5-link".toList, target := "/s/x".toList },
   { path := "/a/p-5-link".toList, target := "/s/y".toList }]

/-- The grouped model produced from c3Env and c3Roots: the second root
overwrote the first in the generation map. -/
def c3Model : GCRoots :=
  { profiles := [{ path := "/a/p".toList, active_generation := some 10,
                   generations := [(5, { path := "/a/p-5-link".toList, target := "/s/y".toList })] }]
    standalone := [] }

/-- Two distinct generation roots of profile /a/p plus one standalone root. -/
def c9Roots : List GCRoot :=
  [{ path := "/a/p-5-link".toList, target := "/s/x".toList },
   { path := "/a/p-10-link".toList, target := "/s/y".toList },
   { path := "/b/other".toList, target := "/s/z".toList }]

/-- The profile grouped from c9Roots: generations 5 and 10, 10 active. -/
def c9Profile : Profile :=
  { path := "/a/p".toList, active_generation := some 10,
    generations := [(5, { path := "/a/p-5-link".toList, target := "/s/x".toList }),
                    (10, { path := "/a/p-10-link".toList, target := "/s/y".toList })] }

/-- The grouped model produced from c3Env and c9Roots: one profile with
generations 5 and 10 (10 active), one standalone root. -/
def c9Model : GCRoots :=
  { profiles := [c9Profile]
    standalone := [{ path := "/b/other".toList, target := "/s/z".toList }] }

/-- An environment whose external listing command exited with status 1. -/
def c8FailEnv : Env :=
  { canWrite := fun _ => true
    canRead := fun _ => true
    isSymlink := fun _ => false
    readLink := fun _ => none
    output := { success := false, statusStr := ("exit status: 1").toList, stdout := [] } }

/-- An environment whose external listing command printed a byte that is
not valid UTF-8. -/
def c8BadUtf8Env : Env :=
  { canWrite := fun _ => true
    canRead := fun _ => true
    isSymlink := fun _ => false
    readLink := fun _ => none
    output := { success := true, statusStr := [], stdout := [255] } }

theorem splitOnChar_ne_nil (c : Char) (s : Str) : splitOnChar c s ≠ [] := by
  cases s with
  | nil => simp [splitOnChar]
  | cons x xs =>
    simp only [splitOnChar]
    split
    · simp
    · split <;> simp

theorem splitOnChar_cons_ne (c x : Char) (xs : Str) (h : ¬ x = c) {y : Str} {ys : List Str}
    (hs : splitOnChar c xs = y :: ys) : splitOnChar c (x :: xs) = (x :: y) :: ys := by
  simp [splitOnChar, h, hs]

theorem splitOnChar_append (c : Char) (xs ys : Str) :
    splitOnChar c (xs ++ c :: ys) = splitOnChar c xs ++ splitOnChar c ys := by
  induction xs with
  | nil => simp [splitOnChar]
  | cons x xs ih =>
    by_cases hx : x = c
    · subst hx
      simp [splitOnChar, ih]
    · obtain ⟨y, ys', hs⟩ := List.exists_cons_of_ne_nil (splitOnChar_ne_nil c xs)
      have h2 : splitOnChar c (xs ++ c :: ys) = y :: (ys' ++ splitOnChar c ys) := by
        rw [ih, hs]; rfl
      rw [List.cons_append, splitOnChar_cons_ne c x _ hx h2, splitOnChar_cons_ne c x xs hx hs]
      rfl

theorem splitOnChar_single (c : Char) (s : Str) (h : c ∉ s) : splitOnChar c s = [s] := by
  induction s with
  | nil => rfl
  | cons x xs ih =>
    have hx : ¬ x = c := fun hh => h (by rw [← hh]; exact List.mem_cons_self x xs)
    have hxs : c ∉ xs := fun hc => h (List.mem_cons_of_mem x hc)
    rw [splitOnChar_cons_ne c x xs hx (ih hxs)]

theorem joinWith_cons (c : Char) (s y : Str) (t : List Str) :
    joinWith c (s :: y :: t) = s ++ c :: joinWith c (y :: t) := rfl

theorem joinWith_splitOnChar (c : Char) (s : Str) : joinWith c (splitOnChar c s) = s := by
  induction s with
  | nil => rfl
  | cons x xs ih =>
    obtain ⟨y, ys, hs⟩ := List.exists_cons_of_ne_nil (splitOnChar_ne_nil c xs)
    by_cases hx : x = c
    · have h1 : splitOnChar c (x :: xs) = [] :: splitOnChar c xs := by simp [splitOnChar, hx]
      rw [h1, hs, joinWith_cons, ← hs, ih]
      simp [hx]
    · rw [splitOnChar_cons_ne c x xs hx hs]
      cases ys with
      | nil =>
        rw [hs] at ih
        have hy : y = xs := ih
        simp [joinWith, hy]
      | cons z zs =>
        rw [hs, joinWith_cons] at ih
        rw [joinWith_cons]
        rw [List.cons_append, ih]

theorem exists_last_split {c : Char} {s : Str} (h : c ∈ s) :
    ∃ a d, s = a ++ c :: d ∧ c ∉ d := by
  induction s with
  | nil => cases h
  | cons x xs ih =>
    by_cases hc : c ∈ xs
    · obtain ⟨a, d, heq, hd⟩ := ih hc
      exact ⟨x :: a, d, by rw [heq]; rfl, hd⟩
    · have hx : x = c := by
        rcases List.mem_cons.mp h with h1 | h2
        · exact h1.symm
        · exact absurd h2 hc
      exact ⟨[], xs, by rw [hx, List.nil_append], hc⟩

theorem rsplitn3_two {c : Char} {b d : Str} (hb : c ∉ b) (hd : c ∉ d) :
    rsplitn 3 c (b ++ c :: d) = [d, b] := by
  unfold rsplitn
  rw [splitOnChar_append, splitOnChar_single c b hb, splitOnChar_single c d hd]
  simp

theorem rsplitn3_three {c : Char} {a b d : Str} (hb : c ∉ b) (hd : c ∉ d) :
    rsplitn 3 c (a ++ c :: (b ++ c :: d)) = [d, b, a] := by
  unfold rsplitn
  rw [splitOnChar_append, splitOnChar_append, splitOnChar_single c b hb,
    splitOnChar_single c d hd]
  obtain ⟨y, ys, hs⟩ := List.exists_cons_of_ne_nil (splitOnChar_ne_nil c a)
  have hjoin : joinWith c (splitOnChar c a) = a := joinWith_splitOnChar c a
  cases ys with
  | nil =>
    rw [hs] at hjoin ⊢
    have hy : y = a := hjoin
    simp [hy]
  | cons z zs =>
    have hlen : ¬ (splitOnChar c a ++ [b] ++ [d]).length ≤ 3 := by
      rw [hs]; simp
    rw [show splitOnChar c a ++ ([b] ++ [d]) = splitOnChar c a ++ [b] ++ [d] by simp]
    rw [if_neg hlen]
    have hlen2 : (splitOnChar c a ++ [b] ++ [d]).length - (3 - 1) = (splitOnChar c a).length := by
      simp
    rw [hlen2]
    have hdrop : (splitOnChar c a ++ [b] ++ [d]).drop (splitOnChar c a).length = [b, d] := by
      rw [List.append_assoc]
      exact List.drop_left _ _
    have htake : (splitOnChar c a ++ [b] ++ [d]).take (splitOnChar c a).length = splitOnChar c a := by
      rw [List.append_assoc]
      exact List.take_left _ _
    rw [hdrop, htake, hjoin]
    rfl

theorem lastPart_suffix (c : Char) (s : Str) : lastPart c s <:+ s := by
  induction s with
  | nil => exact List.suffix_refl _
  | cons x xs ih =>
    by_cases h1 : c ∈ xs
    · simp only [lastPart, if_pos h1]
      exact ih.trans (List.suffix_cons x xs)
    · by_cases h2 : x = c
      · simp only [lastPart, if_neg h1, if_pos h2]
        exact List.suffix_cons x xs
      · simp only [lastPart, if_neg h1, if_neg h2]
        exact List.suffix_refl _

theorem fileName_suffix {p fn : Str} (h : fileName p = some fn) : fn <:+ p := by
  simp only [fileName] at h
  split at h
  · exact absurd h (by simp)
  · exact (Option.some.inj h) ▸ lastPart_suffix '/' p

theorem count_ge_two_of_decomp (c : Char) (a b d : Str) :
    2 ≤ (a ++ c :: (b ++ c :: d)).count c := by
  simp [List.count_append, List.count_cons]
  omega

theorem gen_some_iff_decomp {r : GCRoot} {n : Nat} :
    r.get_profile_gen = some n ↔
      ∃ name ns, fileName r.path = some (name ++ '-' :: (ns ++ '-' :: "link".toList))
        ∧ '-' ∉ ns ∧ parseU64 ns = some n := by
  constructor
  · intro h
    cases hfn : fileName r.path with
    | none => simp [GCRoot.get_profile_gen, hfn] at h
    | some fn =>
      simp only [GCRoot.get_profile_gen, hfn] at h
      by_cases hcnt : 2 ≤ fn.count '-'
      · rw [if_pos hcnt] at h
        have hmem : '-' ∈ fn := by
          by_contra hnm
          rw [List.count_eq_zero_of_not_mem hnm] at hcnt
          omega
        obtain ⟨a', d, hfn1, hd⟩ := exists_last_split hmem
        have hcnt2 : 1 ≤ a'.count '-' := by
          have h1 : fn.count '-' = a'.count '-' + (d.count '-' + 1) := by
            rw [hfn1]
            simp [List.count_append, List.count_cons_self]
          rw [List.count_eq_zero_of_not_mem hd] at h1
          omega
        have hmem2 : '-' ∈ a' := by
          by_contra hnm
          rw [List.count_eq_zero_of_not_mem hnm] at hcnt2
          omega
        obtain ⟨a, b, hfn2, hb⟩ := exists_last_split hmem2
        have hfn3 : fn = a ++ '-' :: (b ++ '-' :: d) := by
          rw [hfn1, hfn2]
          simp
        rw [hfn3, rsplitn3_three hb hd] at h
        by_cases hlink : d = "link".toList
        · subst hlink
          simp at h
          exact ⟨a, b, by rw [hfn3], hb, h⟩
        · have hne : ¬ (([d, b, a] : List Str).get? 0 = some ("link".toList)) := by
            intro hh
            exact hlink (Option.some.inj hh)
          rw [if_neg hne] at h
          cases h
      · rw [if_neg hcnt] at h
        cases h
  · rintro ⟨name, ns, hfn, hns, hparse⟩
    have hlink : '-' ∉ "link".toList := by decide
    simp only [GCRoot.get_profile_gen, hfn]
    rw [if_pos (count_ge_two_of_decomp '-' name ns ("link".toList))]
    rw [rsplitn3_three hns hlink]
    simp [hparse]

theorem rsplitn3_one {c : Char} {s : Str} (h : c ∉ s) : rsplitn 3 c s = [s] := by
  unfold rsplitn
  rw [splitOnChar_single c s h]
  rfl

theorem rsplitn3_get1 {c : Char} {s b : Str} :
    (rsplitn 3 c s).get? 1 = some b ↔
      ((∃ d, s = b ++ c :: d ∧ c ∉ b ∧ c ∉ d)
        ∨ (∃ a d, s = a ++ c :: (b ++ c :: d) ∧ c ∉ b ∧ c ∉ d)) := by
  constructor
  · intro h
    by_cases h0 : s.count c = 0
    · rw [rsplitn3_one (by rwa [← List.count_eq_zero])] at h
      cases h
    · by_cases h1 : s.count c = 1
      · have hmem : c ∈ s := by
          rw [← List.count_pos_iff]
          omega
        obtain ⟨a', d, heq, hd⟩ := exists_last_split hmem
        have ha' : c ∉ a' := by
          rw [← List.count_eq_zero]
          have : s.count c = a'.count c + (d.count c + 1) := by
            rw [heq]
            simp [List.count_append, List.count_cons_self]
          rw [List.count_eq_zero_of_not_mem hd] at this
          omega
        rw [heq, rsplitn3_two ha' hd] at h
        have hb : a' = b := Option.some.inj h
        exact Or.inl ⟨d, by rw [heq, hb], hb ▸ ha', hd⟩
      · have h2 : 2 ≤ s.count c := by omega
        have hmem : c ∈ s := by
          rw [← List.count_pos_iff]
          omega
        obtain ⟨a', d, heq, hd⟩ := exists_last_split hmem
        have hcnt2 : 1 ≤ a'.count c := by
          have hc1 : s.count c = a'.count c + (d.count c + 1) := by
            rw [heq]
            simp [List.count_append, List.count_cons_self]
          rw [List.count_eq_zero_of_not_mem hd] at hc1
          omega
        have hmem2 : c ∈ a' := by
          rw [← List.count_pos_iff]
          omega
        obtain ⟨a, b', heq2, hb'⟩ := exists_last_split hmem2
        have heq3 : s = a ++ c :: (b' ++ c :: d) := by
          rw [heq, heq2]
          simp
        rw [heq3, rsplitn3_three hb' hd] at h
        have hb : b' = b := Option.some.inj h
        exact Or.inr ⟨a, d, by rw [heq3, hb], hb ▸ hb', hd⟩
  · rintro (⟨d, heq, hb, hd⟩ | ⟨a, d, heq, hb, hd⟩)
    · rw [heq, rsplitn3_two hb hd]
      rfl
    · rw [heq, rsplitn3_three hb hd]
      rfl

theorem rsplitOnce_eq {pat s a b : Str} (h : rsplitOnce pat s = some (a, b)) :
    s = a ++ pat ++ b := by
  induction s generalizing a b with
  | nil => cases h
  | cons x xs ih =>
    simp only [rsplitOnce] at h
    cases hr : rsplitOnce pat xs with
    | some ab =>
      obtain ⟨a', b'⟩ := ab
      rw [hr] at h
      have ha : a = x :: a' := (Prod.mk.injEq _ _ _ _ ▸ Option.some.inj h).1.symm
      have hb : b = b' := (Prod.mk.injEq _ _ _ _ ▸ Option.some.inj h).2.symm
      rw [ha, hb, List.cons_append, List.cons_append, ← ih hr]
    | none =>
      rw [hr] at h
      by_cases hp : pat.isPrefixOf (x :: xs)
      · rw [if_pos hp] at h
        obtain ⟨rest, hrest⟩ := List.isPrefixOf_iff_prefix.mp hp
        have ha : a = [] := (Prod.mk.injEq _ _ _ _ ▸ Option.some.inj h).1.symm
        have hb : b = (x :: xs).drop pat.length := (Prod.mk.injEq _ _ _ _ ▸ Option.some.inj h).2.symm
        rw [ha, hb, ← hrest, List.drop_left, List.nil_append]
      · rw [if_neg hp] at h
        cases h

theorem path_decomp_of_gen {r : GCRoot} {name ns : Str}
    (hfn : fileName r.path = some (name ++ '-' :: (ns ++ '-' :: "link".toList)))
    (hns : '-' ∉ ns) (hgen : (r.get_profile_gen).isSome = true) :
    ∃ pre, r.path = pre ++ (name ++ '-' :: (ns ++ '-' :: "link".toList)) ∧
      r.get_profile_path = some ((pre ++ name : Str)) := by
  obtain ⟨pre, hpre⟩ := fileName_suffix hfn
  refine ⟨pre, hpre.symm, ?_⟩
  obtain ⟨n, hn⟩ := Option.isSome_iff_exists.mp hgen
  have hlink : '-' ∉ "link".toList := by decide
  have hpath : r.path = (pre ++ name) ++ '-' :: (ns ++ '-' :: "link".toList) := by
    rw [← hpre]
    simp
  simp only [GCRoot.get_profile_path, hn, Option.bind_some]
  rw [hpath, rsplitn3_three hns hlink]
  rfl

/-- C4: a path classifies as a generation root, with generation n, exactly
when its file name decomposes as name-ns-link with parseU64 ns = some n
(ns free of further '-'), and in that case the profile base path returned
is the original path with the "-ns-link" suffix stripped. -/
theorem c4_path_classifier (r : GCRoot) (n : Nat) :
    (r.get_profile_gen = some n ↔
      ∃ name ns, fileName r.path = some (name ++ '-' :: (ns ++ '-' :: "link".toList))
        ∧ '-' ∉ ns ∧ parseU64 ns = some n)
    ∧ (∀ name ns, fileName r.path = some (name ++ '-' :: (ns ++ '-' :: "link".toList)) →
        '-' ∉ ns → parseU64 ns = some n →
        r.get_profile_path = some (r.path.take (r.path.length - (ns.length + 6)))) := by
  refine ⟨gen_some_iff_decomp, ?_⟩
  intro name ns hfn hns hparse
  have hgen : r.get_profile_gen = some n := gen_some_iff_decomp.mpr ⟨name, ns, hfn, hns, hparse⟩
  obtain ⟨pre, hpath, hgp⟩ := path_decomp_of_gen hfn hns (by simp [hgen])
  have h1 : r.path = (pre ++ name) ++ ('-' :: (ns ++ '-' :: "link".toList)) := by
    rw [hpath]
    simp
  have h4 : ("link".toList : Str).length = 4 := rfl
  have hlen : r.path.length - (ns.length + 6) = (pre ++ name).length := by
    rw [h1]
    simp only [List.length_append, List.length_cons, h4]
    omega
  have h2 : r.path.take (r.path.length - (ns.length + 6)) = pre ++ name := by
    calc r.path.take (r.path.length - (ns.length + 6))
        = ((pre ++ name) ++ ('-' :: (ns ++ '-' :: "link".toList))).take (pre ++ name).length := by
          rw [← h1, hlen]
      _ = pre ++ name := List.take_left _ _
  rw [hgp, h2]

/-- C4 witness: the classifier on the concrete path /a/profile-12-link. -/
theorem c4_path_classifier_witness :
    GCRoot.get_profile_gen { path := "/a/profile-12-link".toList, target := "/s/x".toList }
        = some 12
    ∧ GCRoot.get_profile_path { path := "/a/profile-12-link".toList, target := "/s/x".toList }
        = some (("/a/profile-12-link".toList).take
            (("/a/profile-12-link".toList).length - (("12".toList).length + 6))) :=
  ⟨(c4_path_classifier { path := "/a/profile-12-link".toList, target := "/s/x".toList } 12).1.mpr
      ⟨"profile".toList, "12".toList, by decide, by decide, by decide⟩,
   (c4_path_classifier { path := "/a/profile-12-link".toList, target := "/s/x".toList } 12).2
      ("profile".toList) ("12".toList) (by decide) (by decide) (by decide)⟩

/-- C10: get_profile_path is Some exactly when get_profile_gen is, and when
the classifier succeeds the full path contains at least two '-' characters,
so the unwraps inside get_profile_path cannot panic. -/
theorem c10_profile_path_total (r : GCRoot) :
    ((r.get_profile_path).isSome = (r.get_profile_gen).isSome)
    ∧ ((r.get_profile_gen).isSome = true → 2 ≤ r.path.count '-') := by
  cases hgen : r.get_profile_gen with
  | none =>
    constructor
    · simp [GCRoot.get_profile_path, hgen]
    · intro hh
      simp at hh
  | some n =>
    obtain ⟨name, ns, hfn, hns, hparse⟩ := gen_some_iff_decomp.mp hgen
    obtain ⟨pre, hpath, hgp⟩ := path_decomp_of_gen hfn hns (by simp [hgen])
    constructor
    · rw [hgp]
      rfl
    · intro _
      have hc : r.path.count '-'
          = pre.count '-' + ((name ++ '-' :: (ns ++ '-' :: "link".toList)).count '-') := by
        rw [hpath, List.count_append]
      have h2 := count_ge_two_of_decomp '-' name ns ("link".toList)
      omega

/-- C10 witness: the classifier and base path succeed together on the
concrete path /p/sys-5-link, whose full path holds two '-' characters. -/
theorem c10_profile_path_total_witness :
    ((GCRoot.get_profile_path c1Root).isSome = (GCRoot.get_profile_gen c1Root).isSome)
    ∧ 2 ≤ (c1Root.path).count '-' :=
  ⟨(c10_profile_path_total c1Root).1, (c10_profile_path_total c1Root).2 (by decide)⟩

/-- C1 counterexample: a generation root whose profile marks it active
(is_active is true, not false) while deletable still returns true, because
the source's deletable never consults the active state; so "deletable iff
is_active is false and the parent is writable" fails on the code. -/
theorem c1_deletable_counterexample :
    group_gcroots c1Env [c1Root] = .ok c1Model
    ∧ c1Model.profiles = [c1Profile]
    ∧ c1Profile.generations = [(5, c1Root)]
    ∧ isActive c1Profile 5 = true
    ∧ GCRoot.deletable c1Env c1Root = true :=
  ⟨by decide, rfl, rfl, rfl, by decide⟩

/-- C1 (amended): deletable is true iff the location lies under neither
/run nor /proc and the process can write to the location's parent
directory; the root's active state is not consulted. -/
theorem c1_deletable_iff (env : Env) (r : GCRoot) :
    GCRoot.deletable env r = true ↔
      pathStartsWith r.path ("/run".toList) = false
        ∧ pathStartsWith r.path ("/proc".toList) = false
        ∧ ∃ parent, parentPath r.path = some parent ∧ env.canWrite parent = true := by
  simp only [GCRoot.deletable, Bool.and_eq_true, Bool.not_eq_true']
  constructor
  · rintro ⟨⟨h1, h2⟩, h3⟩
    refine ⟨h1, h2, ?_⟩
    cases hp : parentPath r.path with
    | none => simp [GCRoot.can_delete_file, hp] at h3
    | some parent =>
      simp only [GCRoot.can_delete_file, hp] at h3
      exact ⟨parent, rfl, h3⟩
  · rintro ⟨h1, h2, parent, hp, hw⟩
    exact ⟨⟨h1, h2⟩, by simp [GCRoot.can_delete_file, hp, hw]⟩

/-- C5: deletable is false for every root whose location lies under /run
or /proc, whatever the permission oracle says. -/
theorem c5_deletable_excludes_run_proc (env : Env) (r : GCRoot)
    (h : pathStartsWith r.path ("/run".toList) = true
      ∨ pathStartsWith r.path ("/proc".toList) = true) :
    GCRoot.deletable env r = false := by
  rcases h with h | h
  · unfold GCRoot.deletable
    rw [h]
    rfl
  · unfold GCRoot.deletable
    rw [h]
    simp

/-- C5 witness: a root under /run is not deletable even with an
everything-writable permission oracle. -/
theorem c5_deletable_excludes_run_proc_witness :
    pathStartsWith ("/run/a/b".toList) ("/run".toList) = true
    ∧ GCRoot.deletable c1Env { path := "/run/a/b".toList, target := "/s/x".toList } = false :=
  ⟨by decide,
   c5_deletable_excludes_run_proc c1Env { path := "/run/a/b".toList, target := "/s/x".toList }
     (Or.inl (by decide))⟩

/-- C2 counterexample: with the profile symlink at /a/profile pointing at
"foo-7-bar", the resolved target /a/foo-7-bar does not match the
generation-root pattern (the classifier rejects it), so the claim demands
unknown, but the resolver returns generation 7: it only parses the
second-from-right '-'-segment and never checks the "link" suffix. -/
theorem c2_read_active_gen_counterexample :
    read_active_gen c2Env ("/a/profile".toList) = .ok (some 7)
    ∧ GCRoot.get_profile_gen { path := "/a/foo-7-bar".toList, target := [] } = none :=
  ⟨by decide, by decide⟩

/-- C2 (amended): the resolver returns generation n iff the base path is
readable and the link target's file name has the segment before its last
'-' (and after the '-' before that, when one exists) parse as n — the
"link" suffix of the target is never checked; an unreadable base path
yields unknown without error. -/
theorem c2_read_active_gen_spec (env : Env) (p : Str) (n : Nat) :
    (read_active_gen env p = .ok (some n) ↔
      can_read_file env p = true ∧
        ∃ link name, env.readLink p = some link ∧ fileName link = some name
          ∧ ∃ s, parseU64 s = some n
            ∧ ((∃ d, name = s ++ '-' :: d ∧ '-' ∉ s ∧ '-' ∉ d)
              ∨ (∃ a d, name = a ++ '-' :: (s ++ '-' :: d) ∧ '-' ∉ s ∧ '-' ∉ d)))
    ∧ (can_read_file env p = false → read_active_gen env p = .ok none) := by
  constructor
  · constructor
    · intro h
      by_cases hr : can_read_file env p
      · refine ⟨hr, ?_⟩
        simp only [read_active_gen, if_pos hr] at h
        cases hl : env.readLink p with
        | none => rw [hl] at h; cases h
        | some link =>
          rw [hl] at h
          cases hfn : fileName link with
          | none => simp [hfn] at h
          | some name =>
            simp only [hfn] at h
            cases hg : (rsplitn 3 '-' name).get? 1 with
            | none => rw [hg] at h; cases h
            | some s =>
              rw [hg] at h
              have hp : parseU64 s = some n := Except.ok.inj h
              exact ⟨link, name, rfl, hfn, s, hp, rsplitn3_get1.mp hg⟩
      · simp only [read_active_gen, if_neg hr] at h
        cases h
    · rintro ⟨hr, link, name, hl, hfn, s, hp, hdec⟩
      simp only [read_active_gen, if_pos hr, hl, hfn]
      rw [rsplitn3_get1.mpr hdec]
      simp [hp]
  · intro hr
    simp [read_active_gen, hr]

/-- C2 witness: the amended characterization applied to a readable profile
whose target file name is foo-7-bar, and to an unreadable path. -/
theorem c2_read_active_gen_spec_witness :
    read_active_gen c2Env ("/a/profile".toList) = .ok (some 7)
    ∧ read_active_gen c3Env ("/b/x".toList) = .ok none :=
  ⟨(c2_read_active_gen_spec c2Env ("/a/profile".toList) 7).1.mpr
      ⟨by decide, "foo-7-bar".toList, "foo-7-bar".toList, by decide, by decide, "7".toList,
        by decide,
        Or.inr ⟨"foo".toList, "bar".toList, by decide, by decide, by decide⟩⟩,
   (c2_read_active_gen_spec c3Env ("/b/x".toList) 0).2 (by decide)⟩

/-- C6: a line holding the " -> " separator whose path part is not excluded
parses to exactly the pair split at the last separator occurrence, the
root's display form reproduces the line, and no other line parses to the
same pair. -/
theorem c6_line_parse_roundtrip (l p t : Str)
    (hsep : rsplitOnce arrow l = some (p, t))
    (hex1 : ("/proc".toList).isPrefixOf p = false)
    (hex2 : ¬ (p.head? = some (Char.ofNat 123) ∧ p.getLast? = some (Char.ofNat 125))) :
    parse_nix_store_gc_line l = .ok (some { path := p, target := t })
      ∧ GCRoot.display { path := p, target := t } = l
      ∧ ∀ l', parse_nix_store_gc_line l' = .ok (some { path := p, target := t }) → l' = l := by
  have hl : l = p ++ arrow ++ t := rsplitOnce_eq hsep
  have hcond : ¬ (("/proc".toList).isPrefixOf p = true)
      ∧ ¬ (p.head? = some (Char.ofNat 123) ∧ p.getLast? = some (Char.ofNat 125)) := by
    rw [hex1]
    exact ⟨Bool.false_ne_true, hex2⟩
  refine ⟨?_, ?_, ?_⟩
  · simp only [parse_nix_store_gc_line, hsep]
    rw [if_pos hcond]
  · rw [GCRoot.display, hl]
  · intro l' h'
    cases hsep' : rsplitOnce arrow l' with
    | none => simp [parse_nix_store_gc_line, hsep'] at h'
    | some pt =>
      obtain ⟨p', t'⟩ := pt
      simp only [parse_nix_store_gc_line, hsep'] at h'
      by_cases hc : ¬ (("/proc".toList).isPrefixOf p' = true)
          ∧ ¬ (p'.head? = some (Char.ofNat 123) ∧ p'.getLast? = some (Char.ofNat 125))
      · rw [if_pos hc] at h'
        have hroot : ({ path := p', target := t' } : GCRoot) = { path := p, target := t } :=
          Option.some.inj (Except.ok.inj h')
        have hp : p' = p := congrArg GCRoot.path hroot
        have ht : t' = t := congrArg GCRoot.target hroot
        rw [rsplitOnce_eq hsep', hp, ht, ← hl]
      · rw [if_neg hc] at h'
        exact Option.noConfusion (Except.ok.inj h')

/-- C6 witness: the concrete line "/a/b -> /s/q". -/
theorem c6_line_parse_roundtrip_witness :
    parse_nix_store_gc_line ("/a/b -> /s/q".toList)
        = .ok (some { path := "/a/b".toList, target := "/s/q".toList })
    ∧ GCRoot.display { path := "/a/b".toList, target := "/s/q".toList }
        = "/a/b -> /s/q".toList :=
  ⟨(c6_line_parse_roundtrip ("/a/b -> /s/q".toList) ("/a/b".toList) ("/s/q".toList)
      (by decide) (by decide) (by decide)).1,
   (c6_line_parse_roundtrip ("/a/b -> /s/q".toList) ("/a/b".toList) ("/s/q".toList)
      (by decide) (by decide) (by decide)).2.1⟩

/-- C8: a non-zero exit status of the external listing command makes the
whole operation fail with the error naming the command and its exit
status, and non-UTF8 output makes it fail with the UTF-8 error; in both
cases the result is an error, so no model is produced. -/
theorem c8_command_failure_fatal (env : Env) :
    (env.output.success = false →
      from_nix_store_command env = .error (.msg (cmdFailMsg env.output.statusStr)))
    ∧ (env.output.success = true → utf8Decode env.output.stdout = none →
      from_nix_store_command env = .error .utf8Error) := by
  constructor
  · intro h
    simp [from_nix_store_command, parse_nix_store_gc_output, h]
  · intro hs hd
    simp [from_nix_store_command, parse_nix_store_gc_output, hs, hd]

/-- C8 witness: a command that exited with status 1 and a command whose
stdout is the invalid UTF-8 byte 255. -/
theorem c8_command_failure_fatal_witness :
    from_nix_store_command c8FailEnv = .error (.msg (cmdFailMsg (("exit status: 1").toList)))
    ∧ from_nix_store_command c8BadUtf8Env = .error .utf8Error :=
  ⟨(c8_command_failure_fatal c8FailEnv).1 rfl,
   (c8_command_failure_fatal c8BadUtf8Env).2 rfl rfl⟩

theorem flatVals_nil : flatVals [] = [] := rfl

theorem flatVals_cons (p : Profile) (ps : List Profile) :
    flatVals (p :: ps) = p.generations.map Prod.snd ++ flatVals ps := rfl

theorem mapInsert_mem {k : Nat} {v : GCRoot} {m : List (Nat × GCRoot)} {b : Nat × GCRoot}
    (h : b ∈ mapInsert k v m) : b = (k, v) ∨ b ∈ m := by
  induction m with
  | nil => simpa [mapInsert] using h
  | cons kv rest ih =>
    obtain ⟨k', v'⟩ := kv
    simp only [mapInsert] at h
    by_cases h1 : k < k'
    · rw [if_pos h1] at h
      rcases List.mem_cons.mp h with h2 | h2
      · exact Or.inl h2
      · exact Or.inr h2
    · by_cases h2 : k = k'
      · rw [if_neg h1, if_pos h2] at h
        rcases List.mem_cons.mp h with h3 | h3
        · exact Or.inl h3
        · exact Or.inr (List.mem_cons_of_mem _ h3)
      · rw [if_neg h1, if_neg h2] at h
        rcases List.mem_cons.mp h with h3 | h3
        · exact Or.inr (h3 ▸ List.mem_cons_self _ _)
        · rcases ih h3 with h4 | h4
          · exact Or.inl h4
          · exact Or.inr (List.mem_cons_of_mem _ h4)

theorem mapInsert_fst_sub {k a : Nat} {v : GCRoot} {m : List (Nat × GCRoot)}
    (h : a ∈ (mapInsert k v m).map Prod.fst) : a = k ∨ a ∈ m.map Prod.fst := by
  obtain ⟨b, hb, hfst⟩ := List.mem_map.mp h
  rcases mapInsert_mem hb with h1 | h1
  · exact Or.inl (by rw [← hfst, h1])
  · exact Or.inr (hfst ▸ List.mem_map_of_mem Prod.fst h1)

theorem mapInsert_snd_perm {k : Nat} {v : GCRoot} {m : List (Nat × GCRoot)}
    (h : k ∉ m.map Prod.fst) :
    ((mapInsert k v m).map Prod.snd).Perm (v :: m.map Prod.snd) := by
  induction m with
  | nil => simp [mapInsert]
  | cons kv rest ih =>
    obtain ⟨k', v'⟩ := kv
    simp only [List.map_cons, List.mem_cons] at h
    push_neg at h
    obtain ⟨hk, hrest⟩ := h
    simp only [mapInsert]
    by_cases h1 : k < k'
    · rw [if_pos h1]
      exact List.Perm.refl _
    · rw [if_neg h1, if_neg hk]
      simp only [List.map_cons]
      exact ((ih hrest).cons v').trans (List.Perm.swap v v' _)

theorem updateFirst_path_cases {pp : Str} {gen : Nat} {g : GCRoot} {ps : List Profile}
    {q : Profile} (h : q ∈ updateFirst pp gen g ps) :
    q ∈ ps ∨ ∃ p, p ∈ ps ∧ p.path = pp
      ∧ q = { p with generations := mapInsert gen g p.generations } := by
  induction ps with
  | nil => simp [updateFirst] at h
  | cons p rest ih =>
    simp only [updateFirst] at h
    by_cases hp : p.path = pp
    · rw [if_pos hp] at h
      rcases List.mem_cons.mp h with h1 | h1
      · exact Or.inr ⟨p, List.mem_cons_self _ _, hp, h1⟩
      · exact Or.inl (List.mem_cons_of_mem _ h1)
    · rw [if_neg hp] at h
      rcases List.mem_cons.mp h with h1 | h1
      · exact Or.inl (h1 ▸ List.mem_cons_self _ _)
      · rcases ih h1 with h2 | ⟨p', hp1, hp2, hp3⟩
        · exact Or.inl (List.mem_cons_of_mem _ h2)
        · exact Or.inr ⟨p', List.mem_cons_of_mem _ hp1, hp2, hp3⟩

theorem updateFirst_flatVals {pp : Str} {gen : Nat} {g : GCRoot} {ps : List Profile}
    (hex : ∃ p ∈ ps, p.path = pp)
    (hfr : ∀ p ∈ ps, p.path = pp → gen ∉ p.generations.map Prod.fst) :
    (flatVals (updateFirst pp gen g ps)).Perm (g :: flatVals ps) := by
  induction ps with
  | nil =>
    obtain ⟨p, hp, _⟩ := hex
    cases hp
  | cons p rest ih =>
    simp only [updateFirst]
    by_cases hp : p.path = pp
    · rw [if_pos hp]
      rw [flatVals_cons, flatVals_cons]
      have h1 := mapInsert_snd_perm (hfr p (List.mem_cons_self _ _) hp) (v := g)
      exact List.Perm.append_right (flatVals rest) h1
    · rw [if_neg hp]
      rw [flatVals_cons, flatVals_cons]
      have hex' : ∃ q ∈ rest, q.path = pp := by
        obtain ⟨q, hq, hqp⟩ := hex
        rcases List.mem_cons.mp hq with h1 | h1
        · exact absurd (h1 ▸ hqp) hp
        · exact ⟨q, h1, hqp⟩
      have hfr' : ∀ q ∈ rest, q.path = pp → gen ∉ q.generations.map Prod.fst :=
        fun q hq => hfr q (List.mem_cons_of_mem _ hq)
      exact (List.Perm.append_left (p.generations.map Prod.snd) (ih hex' hfr')).trans
        List.perm_middle

theorem searchProfile_some {g : GCRoot} {ps : List Profile} {pp : Str} {gen : Nat}
    (h : searchProfile g ps = some (pp, gen)) :
    g.get_profile_path = some pp ∧ g.get_profile_gen = some gen ∧ ∃ p ∈ ps, p.path = pp := by
  simp only [searchProfile] at h
  cases hgp : g.get_profile_path with
  | none => rw [hgp] at h; cases h
  | some pp' =>
    rw [hgp] at h
    simp only [Option.some_bind] at h
    by_cases hany : ps.any (fun p => decide (p.path = pp'))
    · rw [if_pos hany] at h
      cases hgen : g.get_profile_gen with
      | none => rw [hgen] at h; cases h
      | some n =>
        rw [hgen] at h
        simp only [Option.map_some'] at h
        have hpair := Option.some.inj h
        have hpp : pp' = pp := (Prod.mk.injEq _ _ _ _ ▸ hpair).1
        have hn : n = gen := (Prod.mk.injEq _ _ _ _ ▸ hpair).2
        obtain ⟨p, hpmem, hpdec⟩ := List.any_eq_true.mp hany
        exact ⟨by rw [hpp], by rw [hn], p, hpmem, by rw [← hpp]; exact of_decide_eq_true hpdec⟩
    · rw [if_neg hany] at h
      cases h

theorem keysOf_cons_some {g : GCRoot} {gs : List GCRoot} {k : Str × Nat}
    (h : rootKey g = some k) : keysOf (g :: gs) = k :: keysOf gs := by
  simp [keysOf, List.filterMap_cons, h]

theorem keysOf_cons_none {g : GCRoot} {gs : List GCRoot}
    (h : rootKey g = none) : keysOf (g :: gs) = keysOf gs := by
  simp [keysOf, List.filterMap_cons, h]

theorem keysOf_cons_sub {g : GCRoot} {gs : List GCRoot} {k : Str × Nat}
    (h : k ∈ keysOf gs) : k ∈ keysOf (g :: gs) := by
  cases hk : rootKey g with
  | none => rwa [keysOf_cons_none hk]
  | some k' => rw [keysOf_cons_some hk]; exact List.mem_cons_of_mem _ h

theorem keysOf_cons_nodup {g : GCRoot} {gs : List GCRoot}
    (h : (keysOf (g :: gs)).Nodup) : (keysOf gs).Nodup := by
  cases hk : rootKey g with
  | none => rwa [keysOf_cons_none hk] at h
  | some k' =>
    rw [keysOf_cons_some hk] at h
    exact (List.nodup_cons.mp h).2

theorem populate_perm (gs : List GCRoot) : ∀ ps : List Profile,
    (keysOf gs).Nodup → FreshKeys ps gs →
    ((populate_profiles gs ps).2 ++ flatVals (populate_profiles gs ps).1).Perm
      (flatVals ps ++ gs) := by
  induction gs with
  | nil =>
    intro ps _ _
    simp [populate_profiles]
  | cons g gs ih =>
    intro ps hnd hfr
    cases hs : searchProfile g ps with
    | some ppgen =>
      obtain ⟨pp, gen⟩ := ppgen
      obtain ⟨hgp, hgen, hex⟩ := searchProfile_some hs
      have hkey : rootKey g = some (pp, gen) := by simp [rootKey, hgp, hgen]
      rw [keysOf_cons_some hkey] at hnd
      have hnotin : (pp, gen) ∉ keysOf gs := (List.nodup_cons.mp hnd).1
      have hnd' : (keysOf gs).Nodup := (List.nodup_cons.mp hnd).2
      have hfr1 : ∀ p ∈ ps, p.path = pp → gen ∉ p.generations.map Prod.fst := by
        intro p hp hpp hgenin
        have hh := hfr p hp gen hgenin
        rw [hpp, keysOf_cons_some hkey] at hh
        exact hh (List.mem_cons_self _ _)
      have hfr' : FreshKeys (updateFirst pp gen g ps) gs := by
        intro q hq k hk
        rcases updateFirst_path_cases hq with hqin | ⟨p, hpin, hppq, hqdef⟩
        · intro hmem
          exact hfr q hqin k hk (keysOf_cons_sub hmem)
        · rw [hqdef] at hk ⊢
          simp only at hk ⊢
          rcases mapInsert_fst_sub hk with hkgen | hk'
          · rw [hkgen, hppq]
            exact hnotin
          · intro hmem
            exact hfr p hpin k hk' (keysOf_cons_sub hmem)
      have hperm1 := updateFirst_flatVals (g := g) hex hfr1
      have ih' := ih (updateFirst pp gen g ps) hnd' hfr'
      simp only [populate_profiles, hs]
      exact (ih'.trans (List.Perm.append_right gs hperm1)).trans List.perm_middle.symm
    | none =>
      have hnd' : (keysOf gs).Nodup := keysOf_cons_nodup hnd
      have hfr' : FreshKeys ps gs := by
        intro p hp k hk hmem
        exact hfr p hp k hk (keysOf_cons_sub hmem)
      have ih' := ih ps hnd' hfr'
      simp only [populate_profiles, hs]
      exact (ih'.cons g).trans List.perm_middle.symm

theorem buildProfiles_shape {env : Env} {l : List Str} {ps : List Profile}
    (h : buildProfiles env l = .ok ps) : ∀ p ∈ ps, p.generations = [] := by
  induction l generalizing ps with
  | nil =>
    have hps : ps = [] := (Except.ok.inj h).symm
    intro p hp
    rw [hps] at hp
    cases hp
  | cons path rest ih =>
    simp only [buildProfiles] at h
    cases hr : read_active_gen env path with
    | error e => rw [hr] at h; cases h
    | ok ag =>
      rw [hr] at h
      cases hb : buildProfiles env rest with
      | error e => rw [hb] at h; cases h
      | ok ps' =>
        rw [hb] at h
        simp only [Except.map] at h
        have hps : ps = { path := path, active_generation := ag, generations := [] } :: ps' :=
          (Except.ok.inj h).symm
        intro p hp
        rw [hps] at hp
        rcases List.mem_cons.mp hp with h1 | h1
        · rw [h1]
        · exact ih hb p h1

theorem create_profiles_shape {env : Env} {gs : List GCRoot} {ps : List Profile}
    (h : create_profiles env gs = .ok ps) : ∀ p ∈ ps, p.generations = [] := by
  simp only [create_profiles] at h
  cases hb : buildProfiles env
      (dedupConsec (List.insertionSort strLe
        ((gs.filterMap GCRoot.get_profile_path).filter env.isSymlink))) with
  | error e => rw [hb] at h; cases h
  | ok ps' =>
    rw [hb] at h
    simp only [Except.map] at h
    have hps : ps = List.insertionSort profileLe ps' := (Except.ok.inj h).symm
    intro p hp
    rw [hps] at hp
    exact buildProfiles_shape hb p ((List.perm_insertionSort profileLe ps').mem_iff.mp hp)

theorem flatVals_eq_nil {ps : List Profile} (h : ∀ p ∈ ps, p.generations = []) :
    flatVals ps = [] := by
  induction ps with
  | nil => rfl
  | cons p rest ih =>
    rw [flatVals_cons, h p (List.mem_cons_self _ _), ih (fun q hq => h q (List.mem_cons_of_mem _ hq))]
    rfl

/-- C3 counterexample: two parsed roots with the same location map to the
same (profile, generation) key; the second overwrites the first in the
generation map, so the grouped model holds one root where two were
parsed — the total is not conserved. -/
theorem c3_partition_counterexample :
    group_gcroots c3Env c3Roots = .ok c3Model
    ∧ c3Roots.length = 2
    ∧ (c3Model.standalone ++ flatVals c3Model.profiles).length = 1 :=
  ⟨by decide, rfl, by decide⟩

/-- C3 (amended): when no two parsed roots share a grouping key (profile
path, generation), the grouped model's standalone list together with all
profile generation maps is a permutation of the parsed roots: every root
lands in exactly one place and the total is conserved.  Without that
hypothesis a key collision overwrites (last-seen wins) and the total can
drop. -/
theorem c3_partition_of_nodup_keys (env : Env) (gs : List GCRoot) (m : GCRoots)
    (hok : group_gcroots env gs = .ok m) (hnd : (keysOf gs).Nodup) :
    (m.standalone ++ flatVals m.profiles).Perm gs := by
  simp only [group_gcroots] at hok
  cases hc : create_profiles env gs with
  | error e => rw [hc] at hok; cases hok
  | ok ps =>
    rw [hc] at hok
    simp only [Except.map] at hok
    have hm := (Except.ok.inj hok).symm
    have hempty := create_profiles_shape hc
    have hfr : FreshKeys ps gs := by
      intro p hp k hk
      rw [hempty p hp] at hk
      cases hk
    have hmain := populate_perm gs ps hnd hfr
    rw [flatVals_eq_nil hempty, List.nil_append] at hmain
    rw [hm]
    exact (List.Perm.append_right _ (List.perm_insertionSort _ _)).trans hmain

/-- C3 witness: three roots with pairwise distinct grouping keys are
conserved by grouping. -/
theorem c3_partition_of_nodup_keys_witness :
    (keysOf c9Roots).Nodup
    ∧ (c9Model.standalone ++ flatVals c9Model.profiles).Perm c9Roots :=
  ⟨by decide, c3_partition_of_nodup_keys c3Env c9Roots c9Model (by decide) (by decide)⟩

/-- C7: in every grouped model, for every profile, at most one generation
is marked active, a generation is marked active only when the profile's
active_generation is that known generation, and an unknown
active_generation marks no generation active. -/
theorem c7_at_most_one_active (env : Env) (gs : List GCRoot) (m : GCRoots)
    (_hok : group_gcroots env gs = .ok m) (p : Profile) (_hp : p ∈ m.profiles) :
    (∀ i j, isActive p i = true → isActive p j = true → i = j)
    ∧ (∀ i, isActive p i = true → p.active_generation = some i)
    ∧ (p.active_generation = none → ∀ i, isActive p i = false) := by
  refine ⟨?_, ?_, ?_⟩
  · intro i j hi hj
    simp only [isActive, beq_iff_eq] at hi hj
    exact Option.some.inj (hi ▸ hj)
  · intro i hi
    simpa only [isActive, beq_iff_eq] using hi
  · intro hnone i
    simp [isActive, hnone]

/-- C7 witness: in the grouped model of c9Roots, the profile's marked-active
generation is the known active generation 10. -/
theorem c7_at_most_one_active_witness : c9Profile.active_generation = some 10 :=
  (c7_at_most_one_active c3Env c9Roots c9Model (by decide) c9Profile (by decide)).2.1
    10 (by decide)

theorem natDigitsAux_congr : ∀ f1 : Nat, ∀ f2 n : Nat, n < f1 → n < f2 →
    natDigitsAux f1 n = natDigitsAux f2 n := by
  intro f1
  induction f1 with
  | zero => omega
  | succ f ihf =>
    intro f2 n h1 h2
    cases f2 with
    | zero => omega
    | succ f2' =>
      simp only [natDigitsAux]
      by_cases h : n < 10
      · rw [if_pos h, if_pos h]
      · rw [if_neg h, if_neg h]
        rw [ihf f2' (n / 10) (by omega) (by omega)]

theorem natDigits_eq (n : Nat) :
    natDigits n = if n < 10 then [Char.ofNat (48 + n)]
      else natDigits (n / 10) ++ [Char.ofNat (48 + n % 10)] := by
  show natDigitsAux (n + 1) n = _
  simp only [natDigitsAux]
  by_cases h : n < 10
  · rw [if_pos h, if_pos h]
  · rw [if_neg h, if_neg h]
    rw [natDigitsAux_congr n (n / 10 + 1) (n / 10) (by omega) (by omega)]
    rfl

theorem natDigits_ne_nil (n : Nat) : natDigits n ≠ [] := by
  rw [natDigits_eq]
  split <;> simp

theorem digitsWidth_eq (p : Profile) :
    p.digitsWidth = (natDigits ((listMax (p.generations.map Prod.fst)).getD 0)).length := by
  unfold Profile.digitsWidth
  cases hm : listMax (p.generations.map Prod.fst) with
  | none => rfl
  | some mk =>
    simp only [Option.some_bind, Option.getD_some]
    by_cases h0 : mk = 0
    · subst h0
      rfl
    · simp only [checkedIlog10, if_neg h0, Option.getD_some]
      have hlen : 1 ≤ (natDigits mk).length := List.length_pos.mpr (natDigits_ne_nil mk)
      omega

theorem mapInsert_pairwise {k : Nat} {v : GCRoot} {m : List (Nat × GCRoot)}
    (h : List.Pairwise (fun a b : Nat × GCRoot => a.1 < b.1) m) :
    List.Pairwise (fun a b : Nat × GCRoot => a.1 < b.1) (mapInsert k v m) := by
  induction m with
  | nil => simp [mapInsert]
  | cons kv rest ih =>
    obtain ⟨k', v'⟩ := kv
    obtain ⟨hhead, htail⟩ := List.pairwise_cons.mp h
    simp only [mapInsert]
    by_cases h1 : k < k'
    · rw [if_pos h1]
      refine List.pairwise_cons.mpr ⟨?_, h⟩
      intro b hb
      rcases List.mem_cons.mp hb with hb' | hb'
      · rw [hb']
        exact h1
      · exact lt_trans h1 (hhead b hb')
    · by_cases h2 : k = k'
      · rw [if_neg h1, if_pos h2]
        refine List.pairwise_cons.mpr ⟨?_, htail⟩
        intro b hb
        rw [h2]
        exact hhead b hb
      · rw [if_neg h1, if_neg h2]
        refine List.pairwise_cons.mpr ⟨?_, ih htail⟩
        intro b hb
        rcases mapInsert_mem hb with hb' | hb'
        · rw [hb']
          omega
        · exact hhead b hb'

theorem updateFirst_keySorted {pp : Str} {gen : Nat} {g : GCRoot} {ps : List Profile}
    (h : ∀ p ∈ ps, KeySorted p) : ∀ q ∈ updateFirst pp gen g ps, KeySorted q := by
  intro q hq
  rcases updateFirst_path_cases hq with hqin | ⟨p, hpin, _, hqdef⟩
  · exact h q hqin
  · rw [hqdef]
    exact mapInsert_pairwise (h p hpin)

theorem populate_keySorted (gs : List GCRoot) : ∀ ps : List Profile,
    (∀ p ∈ ps, KeySorted p) → ∀ q ∈ (populate_profiles gs ps).1, KeySorted q := by
  induction gs with
  | nil =>
    intro ps h q hq
    exact h q hq
  | cons g gs ih =>
    intro ps h q hq
    cases hs : searchProfile g ps with
    | some ppgen =>
      obtain ⟨pp, gen⟩ := ppgen
      simp only [populate_profiles, hs] at hq
      exact ih (updateFirst pp gen g ps) (updateFirst_keySorted h) q hq
    | none =>
      simp only [populate_profiles, hs] at hq
      exact ih ps h q hq

theorem group_keySorted {env : Env} {gs : List GCRoot} {m : GCRoots}
    (hok : group_gcroots env gs = .ok m) : ∀ p ∈ m.profiles, KeySorted p := by
  simp only [group_gcroots] at hok
  cases hc : create_profiles env gs with
  | error e => rw [hc] at hok; cases hok
  | ok ps =>
    rw [hc] at hok
    simp only [Except.map] at hok
    have hm := (Except.ok.inj hok).symm
    have hempty := create_profiles_shape hc
    intro p hp
    rw [hm] at hp
    refine populate_keySorted gs ps ?_ p hp
    intro q hq
    unfold KeySorted
    rw [hempty q hq]
    exact List.Pairwise.nil

theorem profilesPart_eq_joinBy (l : List Str) :
    GCRoots.profilesPart l = joinBy ['\n', '\n'] l := by
  induction l with
  | nil => rfl
  | cons s rest ih =>
    cases rest with
    | nil => rfl
    | cons y t =>
      simp only [GCRoots.profilesPart, joinBy] at ih ⊢
      rw [ih]

theorem standalonePart_eq_joinBy (l : List Str) :
    GCRoots.standalonePart l = joinBy ['\n'] l := by
  induction l with
  | nil => rfl
  | cons s rest ih =>
    cases rest with
    | nil => rfl
    | cons y t =>
      simp only [GCRoots.standalonePart, joinBy] at ih ⊢
      rw [ih]

theorem profile_display_spec {p : Profile} (h : KeySorted p) :
    Profile.display p = p.path ++ specProfileLines padNum p := by
  have hsorted : List.Sorted genLe p.generations :=
    List.Pairwise.imp (fun hh => le_of_lt hh) h
  unfold Profile.display specProfileLines
  rw [List.Sorted.insertionSort_eq hsorted, digitsWidth_eq]

/-- C9 counterexample: on a grouped model whose profile has generations 5
and 10, the rendering right-aligns the one-digit number (producing the
line "   5 -> /s/x"), while the claim's literal right-padding would
produce "  5  -> /s/x"; so the output differs from the claimed form. -/
theorem c9_render_counterexample :
    group_gcroots c3Env c9Roots = .ok c9Model
    ∧ GCRoots.display c9Model ≠ specRender padNumRight c9Model :=
  ⟨by decide, by decide⟩

/-- C9 (amended): every grouped model renders per the contract of spec
section 6 with the generation numbers right-aligned (padded on the left)
to the width of the largest generation number: each profile prints its
base path then its generations in descending numeric order, the active
generation marked "> " and inactive ones "  ", and the standalone roots
follow all profiles after a blank line, one "location -> target" line
each. -/
theorem c9_render_spec (env : Env) (gs : List GCRoot) (m : GCRoots)
    (hok : group_gcroots env gs = .ok m) :
    GCRoots.display m = specRender padNum m := by
  have hks := group_keySorted hok
  unfold GCRoots.display specRender
  rw [profilesPart_eq_joinBy, standalonePart_eq_joinBy]
  have h1 : m.profiles.map Profile.display
      = m.profiles.map (fun p => p.path ++ specProfileLines padNum p) :=
    List.map_congr_left (fun p hp => profile_display_spec (hks p hp))
  have h2 : (if m.standalone.length > 0 then (['\n', '\n'] : Str) else [])
      = (if m.standalone ≠ [] then (['\n', '\n'] : Str) else []) := by
    cases m.standalone <;> simp
  have h3 : m.standalone.map GCRoot.display
      = m.standalone.map (fun r => r.path ++ arrow ++ r.target) :=
    List.map_congr_left (fun r _ => rfl)
  rw [h1, h2, h3]

/-- C9 witness: the rendering contract evaluated on the grouped model of
c9Roots. -/
theorem c9_render_spec_witness :
    group_gcroots c3Env c9Roots = .ok c9Model
    ∧ GCRoots.display c9Model = specRender padNum c9Model :=
  ⟨by decide, c9_render_spec c3Env c9Roots c9Model (by decide)⟩

end Gcrs
